import Mathlib

/-!
Shallow embedding of `clap-config` (`src/lib.rs`): an adapter turning a
parsed clap argument tree into a `config` source.  Rust `HashMap`s are
modelled as association lists with insert-replaces semantics (the lookup
sees the last insertion); `clap::ArgMatches` — an opaque parse-result
tree per the spec — is modelled as a record of its accessors.
-/

namespace ClapConfig

/-- Association-list model of `HashMap::get`. -/
def hmFind? {α : Type} : List (String × α) → String → Option α
  | [], _ => none
  | p :: rest, k => if p.1 = k then some p.2 else hmFind? rest k

/-- Association-list model of `HashMap::insert`: the new binding replaces
any previous binding of the same key. -/
def hmInsert {α : Type} (m : List (String × α)) (k : String) (v : α) :
    List (String × α) :=
  (k, v) :: m.filter (fun p => decide (p.1 ≠ k))

/-- Model of collecting an iterator of pairs into a `HashMap`: the pairs
are inserted in iteration order, so a later pair overwrites an earlier
pair with the same key. -/
def hmOfList {α : Type} (l : List (String × α)) : List (String × α) :=
  l.foldl (fun m p => hmInsert m p.1 p.2) []

/-- `enum CliType` from `src/lib.rs`; the `Subcommand` payload is the
`HashMap<String, CliType>` of the nested grammar. -/
inductive CliType where
  | Multiple : CliType
  | Single : CliType
  | Count : CliType
  | Boolean : CliType
  | Subcommand : List (String × CliType) → CliType

/-- One declared option/flag/positional: its name together with the
`ArgSettings::TakesValue` and `ArgSettings::Multiple` settings read by
`get_args_types`. -/
structure Arg where
  name : String
  takes_value : Bool
  multiple : Bool

/-- The part of `clap::App` read by `get_args_types`: `p.meta.name`,
`p.subcommands`, `p.opts`, `p.flags` and `p.positionals` (the latter in
index-iteration order). -/
inductive App where
  | mk : String → List App → List Arg → List Arg → List Arg → App

def App.name : App → String
  | .mk n _ _ _ _ => n

def App.subcommands : App → List App
  | .mk _ s _ _ _ => s

def App.opts : App → List Arg
  | .mk _ _ o _ _ => o

def App.flags : App → List Arg
  | .mk _ _ _ f _ => f

def App.positionals : App → List Arg
  | .mk _ _ _ _ p => p

/-- The inner `convert` closure of `get_args_types`. -/
def convert (name : String) (takes_value : Bool) (multiple : Bool) :
    String × CliType :=
  (name,
    match takes_value, multiple with
    | true, true => CliType.Multiple
    | true, false => CliType.Single
    | false, true => CliType.Count
    | false, false => CliType.Boolean)

/-- The entries contributed to `get_args_types` by one list of declared
options, flags or positionals. -/
def argEntries (l : List Arg) : List (String × CliType) :=
  l.map (fun a => convert a.name a.takes_value a.multiple)

mutual

/-- `Clap::get_args_types`: chain the subcommand entries, then options,
then flags, then positionals, and collect into a `HashMap` (so a later
entry overwrites an earlier entry sharing its name). -/
def get_args_types : App → List (String × CliType)
  | .mk _ subs opts flags positionals =>
      hmOfList (subcommandEntries subs ++ argEntries opts ++
        argEntries flags ++ argEntries positionals)

/-- The entries contributed to `get_args_types` by the declared
subcommands: each subcommand name mapped to its own recursively built
classification tree. -/
def subcommandEntries : List App → List (String × CliType)
  | [] => []
  | a :: rest =>
      (a.name, CliType.Subcommand (get_args_types a)) :: subcommandEntries rest

end

/-- Model of `clap::ArgMatches` — the opaque Parse Result Tree.  It
records, per argument name, the supplied values, the occurrence count
and the presence flag, plus the invoked subcommand (name and nested
matches), mirroring the accessors the adapter calls. -/
inductive ArgMatches where
  | mk : List (String × List String) → List (String × Nat) → List String →
      Option (String × ArgMatches) → ArgMatches

/-- `ArgMatches::values_of`: all supplied values, `none` when the
argument was not supplied. -/
def ArgMatches.valuesOf : ArgMatches → String → Option (List String)
  | .mk vs _ _ _, n => hmFind? vs n

/-- `ArgMatches::value_of`: the first supplied value, if any. -/
def ArgMatches.valueOf (m : ArgMatches) (n : String) : Option String :=
  (m.valuesOf n).bind List.head?

/-- `ArgMatches::occurrences_of`: zero when the argument never occurred. -/
def ArgMatches.occurrencesOf : ArgMatches → String → Nat
  | .mk _ occ _ _, n => (hmFind? occ n).getD 0

/-- `ArgMatches::is_present`. -/
def ArgMatches.isPresent : ArgMatches → String → Bool
  | .mk _ _ pr _, n => pr.contains n

/-- The invoked subcommand at this scope, with its nested matches. -/
def ArgMatches.subcommand : ArgMatches → Option (String × ArgMatches)
  | .mk _ _ _ s => s

/-- `ArgMatches::subcommand_name`. -/
def ArgMatches.subcommandName (m : ArgMatches) : Option String :=
  m.subcommand.map Prod.fst

/-- `ArgMatches::subcommand_matches`: the nested matches when the named
subcommand is the one that was invoked. -/
def ArgMatches.subcommandMatches (m : ArgMatches) (n : String) :
    Option ArgMatches :=
  match m.subcommand with
  | some (sn, sm) => if sn = n then some sm else none
  | none => none

/-- The `config::Value` payloads this adapter constructs: scalar string,
array of strings, integer, boolean, or nested table. -/
inductive Value where
  | str : String → Value
  | strList : List String → Value
  | int : Int → Value
  | bool : Bool → Value
  | table : List (String × Value) → Value

/-- `config::ConfigError` (only its existence matters to this core). -/
inductive ConfigError where
  | Message : String → ConfigError

mutual

/-- The inner `extract_matches` function of `Clap::collect`: walk the
classification map, keep the entries whose classification yields a value
for these matches, and collect them into a `HashMap`. -/
def extract_matches (m : ArgMatches) (args : List (String × CliType)) :
    List (String × Value) :=
  hmOfList (extractEntries m args)

/-- The iterator underlying `extract_matches`: `args.into_iter()`
filter-mapped through `extractEntry` before being collected. -/
def extractEntries : ArgMatches → List (String × CliType) → List (String × Value)
  | _, [] => []
  | m, (name, tpe) :: rest =>
      match extractEntry m name tpe with
      | some v => (name, v) :: extractEntries m rest
      | none => extractEntries m rest

/-- The `filter_map` closure body of `extract_matches`, dispatching on
the classification: `Multiple` and `Single` emit a value only when one
was supplied, `Count` and `Boolean` always emit, `Subcommand` recurses
when that subcommand was invoked. -/
def extractEntry (m : ArgMatches) (name : String) : CliType → Option Value
  | CliType.Multiple =>
      (m.valuesOf name).map (fun values => Value.strList values)
  | CliType.Single => (m.valueOf name).map (fun value => Value.str value)
  | CliType.Count => some (Value.int (m.occurrencesOf name))
  | CliType.Boolean => some (Value.bool (m.isPresent name))
  | CliType.Subcommand subargs =>
      (m.subcommandMatches name).map
        (fun submatches => Value.table (extract_matches submatches subargs))

end

/-- `struct Clap`: the adapter owning the classification tree, the parse
results and the optional synthetic subcommand-field name. -/
structure Clap where
  args : List (String × CliType)
  «matches» : ArgMatches
  subcommand_field : Option String

/-- `Clap::from_matches`: construction leaves the subcommand field
unset. -/
def Clap.from_matches (args : List (String × CliType))
    («matches» : ArgMatches) : Clap :=
  { args := args, «matches» := «matches», subcommand_field := none }

/-- The `Clap::subcommand_field` builder method. -/
def Clap.withSubcommandField (c : Clap) (field : String) : Clap :=
  { c with subcommand_field := some field }

/-- `<Clap as Source>::collect`: extract the root scope, then — when a
subcommand-field name is configured and a subcommand was invoked —
insert that field bound to the invoked subcommand's name. -/
def Clap.collect (c : Clap) : Except ConfigError (List (String × Value)) :=
  let m := extract_matches c.«matches» c.args
  let m2 :=
    match c.subcommand_field, c.«matches».subcommandName with
    | some f, some s => hmInsert m f (Value.str s)
    | _, _ => m
  Except.ok m2

/-! Concrete grammars and parse results, mirroring the scenario of the
repository's test (`--format <v>` single, `-v` counted, subcommand `sub`
with repeatable `-i` and flag `-F`). -/

/-- A parse result in which nothing was supplied and no subcommand was
invoked. -/
def noneMatches : ArgMatches := ArgMatches.mk [] [] [] none

/-- The classification tree of the `sub` subcommand's grammar. -/
def subArgsEx : List (String × CliType) :=
  [("ids", CliType.Multiple), ("flag", CliType.Boolean)]

/-- The root classification tree of the example grammar. -/
def rootArgsEx : List (String × CliType) :=
  [("format", CliType.Single), ("verbosity", CliType.Count),
   ("sub", CliType.Subcommand subArgsEx)]

/-- Parse results of `sub -i1 -i2 -i3`. -/
def subMatchesEx : ArgMatches :=
  ArgMatches.mk [("ids", ["1", "2", "3"])] [("ids", 3)] ["ids"] none

/-- Parse results of `-vvv --format=json sub -i1 -i2 -i3`. -/
def rootMatchesEx : ArgMatches :=
  ArgMatches.mk [("format", ["json"])] [("format", 1), ("verbosity", 3)]
    ["format", "verbosity"] (some ("sub", subMatchesEx))

/-- The example adapter, with subcommand field `"mode"` configured. -/
def clapEx : Clap :=
  { args := rootArgsEx, «matches» := rootMatchesEx,
    subcommand_field := some "mode" }

/-- An adapter whose configured subcommand-field name collides with the
name of the invoked subcommand. -/
def collideClap : Clap :=
  { args := [("sub", CliType.Subcommand [])],
    «matches» := ArgMatches.mk [] [] [] (some ("sub", noneMatches)),
    subcommand_field := some "sub" }

/-- An adapter over the empty grammar with no field configured. -/
def emptyClap : Clap :=
  { args := [], «matches» := noneMatches, subcommand_field := none }

/-! Lookup lemmas for the association-list `HashMap` model. -/

theorem hmFind?_append {α : Type} (l₁ l₂ : List (String × α)) (k : String) :
    hmFind? (l₁ ++ l₂) k = (hmFind? l₁ k).orElse (fun _ => hmFind? l₂ k) := by
  induction l₁ with
  | nil => simp [hmFind?]
  | cons p rest ih =>
      by_cases h : p.1 = k
      · simp [hmFind?, h, Option.orElse]
      · simp [hmFind?, h, ih]

theorem hmFind?_cons {α : Type} (p : String × α) (l : List (String × α))
    (k : String) :
    hmFind? (p :: l) k = if p.1 = k then some p.2 else hmFind? l k := rfl

theorem hmFind?_filter_ne {α : Type} (m : List (String × α)) (k k' : String)
    (h : k ≠ k') :
    hmFind? (m.filter (fun p => decide (p.1 ≠ k))) k' = hmFind? m k' := by
  induction m with
  | nil => rfl
  | cons p rest ih =>
      rw [List.filter_cons]
      by_cases hp : p.1 = k
      · have hd : decide (p.1 ≠ k) = false := by simp [hp]
        have hp' : p.1 ≠ k' := fun hh => h (hp.symm.trans hh)
        rw [hd]
        simp only [Bool.false_eq_true, if_false]
        rw [ih, hmFind?_cons, if_neg hp']
      · have hd : decide (p.1 ≠ k) = true := by simp [hp]
        rw [hd]
        simp only [if_true]
        rw [hmFind?_cons, hmFind?_cons]
        by_cases hpk : p.1 = k'
        · simp [hpk]
        · rw [if_neg hpk, if_neg hpk]
          exact ih

theorem hmFind?_hmInsert {α : Type} (m : List (String × α)) (k : String)
    (v : α) (k' : String) :
    hmFind? (hmInsert m k v) k' = if k = k' then some v else hmFind? m k' := by
  rw [hmInsert, hmFind?_cons]
  by_cases h : k = k'
  · simp [h]
  · rw [if_neg h, if_neg h, hmFind?_filter_ne m k k' h]

theorem hmFind?_foldl_hmInsert {α : Type} (l : List (String × α))
    (init : List (String × α)) (k : String) :
    hmFind? (l.foldl (fun m p => hmInsert m p.1 p.2) init) k =
      (hmFind? l.reverse k).orElse (fun _ => hmFind? init k) := by
  induction l generalizing init with
  | nil => simp [hmFind?]
  | cons p rest ih =>
      simp only [List.foldl_cons, List.reverse_cons]
      rw [ih, hmFind?_append]
      cases hrev : hmFind? rest.reverse k with
      | some a => simp [Option.orElse]
      | none =>
          simp only [Option.orElse, Option.none_orElse]
          rw [hmFind?_hmInsert, hmFind?_cons]
          by_cases h : p.1 = k
          · simp [h, Option.orElse]
          · simp [h, hmFind?, Option.orElse]

theorem hmFind?_hmOfList {α : Type} (l : List (String × α)) (k : String) :
    hmFind? (hmOfList l) k = hmFind? l.reverse k := by
  rw [hmOfList, hmFind?_foldl_hmInsert]
  cases hmFind? l.reverse k <;> simp [hmFind?, Option.orElse]

theorem hmFind?_eq_none_iff {α : Type} (l : List (String × α)) (k : String) :
    hmFind? l k = none ↔ k ∉ l.map Prod.fst := by
  induction l with
  | nil => simp [hmFind?]
  | cons p rest ih =>
      rw [hmFind?_cons, List.map_cons, List.mem_cons]
      by_cases h : p.1 = k
      · simp [h]
      · rw [if_neg h, ih]
        constructor
        · intro hn hor
          rcases hor with hor | hor
          · exact h hor.symm
          · exact hn hor
        · exact fun hn hmem => hn (Or.inr hmem)

theorem hmFind?_reverse_of_nodup {α : Type} (l : List (String × α))
    (k : String) (h : (l.map Prod.fst).Nodup) :
    hmFind? l.reverse k = hmFind? l k := by
  induction l with
  | nil => rfl
  | cons p rest ih =>
      simp only [List.map_cons, List.nodup_cons] at h
      simp only [List.reverse_cons]
      rw [hmFind?_append, ih h.2]
      by_cases hk : p.1 = k
      · have hnone : hmFind? rest k = none := by
          rw [hmFind?_eq_none_iff]
          exact fun hmem => h.1 (hk ▸ hmem)
        simp [hmFind?_cons, hmFind?, hk, hnone, Option.orElse]
      · cases hr : hmFind? rest k <;>
          simp [hmFind?_cons, hmFind?, hk, hr, Option.orElse]

/-! Characterisation of `extract_matches` by lookup. -/

theorem extractEntries_cons (m : ArgMatches) (name : String) (tpe : CliType)
    (rest : List (String × CliType)) :
    extractEntries m ((name, tpe) :: rest) =
      match extractEntry m name tpe with
      | some v => (name, v) :: extractEntries m rest
      | none => extractEntries m rest := by
  rw [extractEntries]

theorem extractEntries_keys_sublist (m : ArgMatches)
    (args : List (String × CliType)) :
    ((extractEntries m args).map Prod.fst).Sublist (args.map Prod.fst) := by
  induction args with
  | nil =>
      rw [extractEntries]
      simp
  | cons p rest ih =>
      obtain ⟨name, tpe⟩ := p
      rw [extractEntries_cons]
      cases extractEntry m name tpe with
      | some v => simpa using ih.cons₂ name
      | none => simpa using ih.cons name

theorem hmFind?_extractEntries (m : ArgMatches)
    (args : List (String × CliType)) (k : String)
    (h : (args.map Prod.fst).Nodup) :
    hmFind? (extractEntries m args) k = (hmFind? args k).bind (extractEntry m k) := by
  induction args with
  | nil =>
      rw [extractEntries]
      rfl
  | cons p rest ih =>
      obtain ⟨name, tpe⟩ := p
      simp only [List.map_cons, List.nodup_cons] at h
      rw [extractEntries_cons, hmFind?_cons]
      by_cases hk : name = k
      · subst hk
        rw [if_pos rfl]
        cases he : extractEntry m name tpe with
        | some v => simp [hmFind?_cons, he]
        | none =>
            have hnone : hmFind? (extractEntries m rest) name = none := by
              rw [hmFind?_eq_none_iff]
              exact fun hmem =>
                h.1 ((extractEntries_keys_sublist m rest).subset hmem)
            simp [he, hnone]
      · rw [if_neg hk]
        cases he : extractEntry m name tpe with
        | some v => simp [hmFind?_cons, hk, ih h.2]
        | none => simp [ih h.2]

theorem hmFind?_extract_matches (m : ArgMatches)
    (args : List (String × CliType)) (k : String)
    (h : (args.map Prod.fst).Nodup) :
    hmFind? (extract_matches m args) k = (hmFind? args k).bind (extractEntry m k) := by
  rw [extract_matches, hmFind?_hmOfList,
    hmFind?_reverse_of_nodup _ _ (h.sublist (extractEntries_keys_sublist m args)),
    hmFind?_extractEntries m args k h]

theorem extract_matches_nil (m : ArgMatches) : extract_matches m [] = [] := by
  rw [extract_matches, extractEntries]
  rfl

theorem hmFind?_extract_matches_eq_none (m : ArgMatches)
    (args : List (String × CliType)) (k : String)
    (hk : k ∉ args.map Prod.fst) :
    hmFind? (extract_matches m args) k = none := by
  rw [extract_matches, hmFind?_hmOfList, hmFind?_eq_none_iff, List.map_reverse,
    List.mem_reverse]
  exact fun hmem => hk ((extractEntries_keys_sublist m args).subset hmem)

theorem subcommand_eq_of_subcommandMatches (m : ArgMatches) (n : String)
    (sm : ArgMatches) (h : m.subcommandMatches n = some sm) :
    m.subcommand = some (n, sm) := by
  unfold ArgMatches.subcommandMatches at h
  cases e : m.subcommand with
  | none => rw [e] at h; exact Option.noConfusion h
  | some p =>
      obtain ⟨sn, sm₀⟩ := p
      rw [e] at h
      have h' : (if sn = n then some sm₀ else none) = some sm := h
      by_cases hs : sn = n
      · rw [if_pos hs] at h'
        rw [hs, Option.some.inj h']
      · rw [if_neg hs] at h'
        exact Option.noConfusion h'

theorem subcommandName_eq_of_subcommandMatches (m : ArgMatches) (n : String)
    (sm : ArgMatches) (h : m.subcommandMatches n = some sm) :
    m.subcommandName = some n := by
  rw [ArgMatches.subcommandName, subcommand_eq_of_subcommandMatches m n sm h]
  rfl

theorem collect_eq_insert (c : Clap) (f s : String)
    (hf : c.subcommand_field = some f)
    (hs : c.«matches».subcommandName = some s) :
    c.collect =
      Except.ok (hmInsert (extract_matches c.«matches» c.args) f (Value.str s)) := by
  unfold Clap.collect
  rw [hf, hs]

theorem collect_eq_no_field (c : Clap) (hf : c.subcommand_field = none) :
    c.collect = Except.ok (extract_matches c.«matches» c.args) := by
  unfold Clap.collect
  rw [hf]

theorem collideClap_extract :
    extract_matches collideClap.«matches» collideClap.args =
      [("sub", Value.table [])] := by
  rw [show collideClap.args = [("sub", CliType.Subcommand [])] from rfl,
    extract_matches, extractEntries_cons]
  rw [show extractEntry collideClap.«matches» "sub" (CliType.Subcommand []) =
      some (Value.table (extract_matches noneMatches [])) by
    rw [extractEntry]
    rfl]
  rw [extract_matches_nil, extractEntries]
  rfl

theorem collideClap_collect :
    collideClap.collect = Except.ok [("sub", Value.str "sub")] := by
  rw [collect_eq_insert collideClap "sub" "sub" rfl rfl, collideClap_extract]
  rfl

end ClapConfig

namespace ClapConfig

/-- C1: `convert` classifies every declared argument from the pair
`(takes_value, multiple)` exactly as `(true,true) ↦ Multiple`,
`(true,false) ↦ Single`, `(false,true) ↦ Count`,
`(false,false) ↦ Boolean`; the four equations cover all boolean pairs and
each assigns a single classification. -/
theorem convert_classification (name : String) :
    convert name true true = (name, CliType.Multiple) ∧
    convert name true false = (name, CliType.Single) ∧
    convert name false true = (name, CliType.Count) ∧
    convert name false false = (name, CliType.Boolean) :=
  ⟨rfl, rfl, rfl, rfl⟩

/-- C2: in any classification tree with distinct keys, a key classified
`Single` or `Multiple` for which the parse result records no supplied
value does not appear in the extracted tree at all — `extract_matches`
omits it rather than binding a placeholder. -/
theorem single_multiple_omitted (m : ArgMatches)
    (args : List (String × CliType)) (name : String)
    (hnd : (args.map Prod.fst).Nodup)
    (hc : hmFind? args name = some CliType.Single ∨
      hmFind? args name = some CliType.Multiple)
    (hv : m.valuesOf name = none) :
    hmFind? (extract_matches m args) name = none := by
  rw [hmFind?_extract_matches m args name hnd]
  rcases hc with hc | hc <;>
    rw [hc] <;>
    simp [extractEntry, ArgMatches.valueOf, hv]

/-- Witness for C2: with nothing supplied, the `Single` key `format` of
the example grammar is absent from the extracted tree. -/
theorem single_multiple_omitted_witness :
    hmFind? (extract_matches noneMatches rootArgsEx) "format" = none :=
  single_multiple_omitted noneMatches rootArgsEx "format" (by decide)
    (Or.inl rfl) rfl

/-- C3: in any classification tree with distinct keys, every key
classified `Count` is always bound in the extracted tree to its
occurrence count as an integer, and every key classified `Boolean` is
always bound to its presence flag — whether or not the argument was
supplied (the `ArgMatches` model yields count `0` and presence `false`
for an argument never supplied). -/
theorem count_boolean_always_present (m : ArgMatches)
    (args : List (String × CliType)) (name : String)
    (hnd : (args.map Prod.fst).Nodup) :
    (hmFind? args name = some CliType.Count →
      hmFind? (extract_matches m args) name =
        some (Value.int (m.occurrencesOf name))) ∧
    (hmFind? args name = some CliType.Boolean →
      hmFind? (extract_matches m args) name =
        some (Value.bool (m.isPresent name))) := by
  constructor <;> intro hc <;>
    rw [hmFind?_extract_matches m args name hnd, hc] <;>
    simp [extractEntry]

/-- Witness for C3: with nothing supplied, the `Count` key `verbosity`
extracts to integer `0` and the `Boolean` key `flag` to `false`. -/
theorem count_boolean_always_present_witness :
    hmFind? (extract_matches noneMatches rootArgsEx) "verbosity" =
      some (Value.int 0) ∧
    hmFind? (extract_matches noneMatches subArgsEx) "flag" =
      some (Value.bool false) :=
  ⟨(count_boolean_always_present noneMatches rootArgsEx "verbosity"
      (by decide)).1 rfl,
   (count_boolean_always_present noneMatches subArgsEx "flag"
      (by decide)).2 rfl⟩

/-- C4: in any classification tree with distinct keys, a key `S`
classified `Subcommand sub` is absent from the extracted tree when `S`
was not invoked — so none of `S`'s sub-grammar keys (in particular its
always-present `Count`/`Boolean` keys, which live only inside `S`'s
subtree) appear; when `S` was invoked with nested results `sm`, the key
`S` is bound to the nested tree obtained by recursing with `sub` over
`sm`. -/
theorem subcommand_scope_nesting (m : ArgMatches)
    (args : List (String × CliType)) (S : String)
    (sub : List (String × CliType))
    (hnd : (args.map Prod.fst).Nodup)
    (hc : hmFind? args S = some (CliType.Subcommand sub)) :
    (m.subcommandMatches S = none →
      hmFind? (extract_matches m args) S = none) ∧
    (∀ sm, m.subcommandMatches S = some sm →
      hmFind? (extract_matches m args) S =
        some (Value.table (extract_matches sm sub))) := by
  constructor
  · intro hno
    rw [hmFind?_extract_matches m args S hnd, hc]
    simp [extractEntry, hno]
  · intro sm hsm
    rw [hmFind?_extract_matches m args S hnd, hc]
    simp [extractEntry, hsm]

/-- Witness for C4: in the example, `sub` is absent when not invoked and
bound to the recursively extracted subtree when invoked. -/
theorem subcommand_scope_nesting_witness :
    hmFind? (extract_matches noneMatches rootArgsEx) "sub" = none ∧
    hmFind? (extract_matches rootMatchesEx rootArgsEx) "sub" =
      some (Value.table (extract_matches subMatchesEx subArgsEx)) :=
  ⟨(subcommand_scope_nesting noneMatches rootArgsEx "sub" subArgsEx
      (by decide) rfl).1 rfl,
   (subcommand_scope_nesting rootMatchesEx rootArgsEx "sub" subArgsEx
      (by decide) rfl).2 subMatchesEx rfl⟩

/-- C5 counterexample: with the field name configured to `"sub"` — the
name of the invoked subcommand itself — the collected tree binds `sub`
to the scalar `"sub"` and does not hold the nested extracted subtree
(which would be an empty table) under `sub`, so the synthetic key is not
present "in addition to" the nested entry. -/
theorem synthetic_field_coexists_cex :
    collideClap.collect = Except.ok [("sub", Value.str "sub")] ∧
    hmFind? [("sub", Value.str "sub")] "sub" ≠
      some (Value.table (extract_matches noneMatches [])) := by
  refine ⟨collideClap_collect, ?_⟩
  rw [extract_matches_nil]
  intro h
  exact Value.noConfusion (Option.some.inj h)

/-- C5 (amended): if the adapter is configured with a subcommand field
name, subcommand `S` was invoked at the root, and the configured field
name differs from `S`, then the collected tree binds the field name to
the scalar string `S` in addition to — not instead of — the nested
entry keyed `S` holding `S`'s extracted subtree. -/
theorem synthetic_field_coexists (c : Clap) (f S : String)
    (sub : List (String × CliType)) (sm : ArgMatches)
    (hf : c.subcommand_field = some f)
    (hnd : (c.args.map Prod.fst).Nodup)
    (hc : hmFind? c.args S = some (CliType.Subcommand sub))
    (hsm : c.«matches».subcommandMatches S = some sm)
    (hne : f ≠ S) :
    ∃ t, c.collect = Except.ok t ∧
      hmFind? t f = some (Value.str S) ∧
      hmFind? t S = some (Value.table (extract_matches sm sub)) := by
  have hs : c.«matches».subcommandName = some S :=
    subcommandName_eq_of_subcommandMatches _ _ _ hsm
  refine ⟨_, collect_eq_insert c f S hf hs, ?_, ?_⟩
  · rw [hmFind?_hmInsert]
    simp
  · rw [hmFind?_hmInsert, if_neg hne, hmFind?_extract_matches _ _ _ hnd, hc]
    simp [extractEntry, hsm]

/-- Witness for C5 (amended): the example adapter with field `"mode"`
and invoked subcommand `sub` carries both `mode = "sub"` and the nested
`sub` subtree. -/
theorem synthetic_field_coexists_witness :
    ∃ t, clapEx.collect = Except.ok t ∧
      hmFind? t "mode" = some (Value.str "sub") ∧
      hmFind? t "sub" =
        some (Value.table (extract_matches subMatchesEx subArgsEx)) :=
  synthetic_field_coexists clapEx "mode" "sub" subArgsEx subMatchesEx rfl
    (by decide) rfl rfl (by decide)

/-- C6: when the configured subcommand-field name equals a key already
produced by extraction at the root scope, the synthetic scalar value
replaces that entry — the injection is an unconditional map insert
performed after extraction completes. -/
theorem synthetic_field_overwrites (c : Clap) (f s : String)
    (hf : c.subcommand_field = some f)
    (hs : c.«matches».subcommandName = some s)
    (hx : ∃ v, hmFind? (extract_matches c.«matches» c.args) f = some v) :
    ∃ t, c.collect = Except.ok t ∧ hmFind? t f = some (Value.str s) := by
  refine ⟨_, collect_eq_insert c f s hf hs, ?_⟩
  rw [hmFind?_hmInsert]
  simp

/-- Witness for C6: with field name `"sub"` colliding with the invoked
subcommand's own key, the collected tree rebinds `sub` to the scalar. -/
theorem synthetic_field_overwrites_witness :
    ∃ t, collideClap.collect = Except.ok t ∧
      hmFind? t "sub" = some (Value.str "sub") :=
  synthetic_field_overwrites collideClap "sub" "sub" rfl rfl
    ⟨Value.table [], by rw [collideClap_extract]; rfl⟩

/-- C7: the synthetic field is injected only into the top-level tree:
the value bound to an invoked subcommand `S` (distinct from the field
name) is exactly the recursive extraction of `S`'s scope, and since
extraction only produces keys declared in the scope's classification
tree, the configured field name — not declared in `S`'s sub-grammar —
never appears in that nested tree, however deeply `sm` itself nests
further invoked subcommands. -/
theorem injection_top_level_only (c : Clap) (f S : String)
    (sub : List (String × CliType)) (sm : ArgMatches)
    (hf : c.subcommand_field = some f)
    (hnd : (c.args.map Prod.fst).Nodup)
    (hc : hmFind? c.args S = some (CliType.Subcommand sub))
    (hsm : c.«matches».subcommandMatches S = some sm)
    (hne : f ≠ S)
    (hfd : f ∉ sub.map Prod.fst) :
    ∃ t, c.collect = Except.ok t ∧
      hmFind? t S = some (Value.table (extract_matches sm sub)) ∧
      hmFind? (extract_matches sm sub) f = none := by
  have hs : c.«matches».subcommandName = some S :=
    subcommandName_eq_of_subcommandMatches _ _ _ hsm
  refine ⟨_, collect_eq_insert c f S hf hs, ?_, ?_⟩
  · rw [hmFind?_hmInsert, if_neg hne, hmFind?_extract_matches _ _ _ hnd, hc]
    simp [extractEntry, hsm]
  · exact hmFind?_extract_matches_eq_none sm sub f hfd

/-- Witness for C7: in the example, the nested `sub` subtree carries no
`mode` key even though the adapter is configured with field `"mode"`. -/
theorem injection_top_level_only_witness :
    ∃ t, clapEx.collect = Except.ok t ∧
      hmFind? t "sub" =
        some (Value.table (extract_matches subMatchesEx subArgsEx)) ∧
      hmFind? (extract_matches subMatchesEx subArgsEx) "mode" = none :=
  injection_top_level_only clapEx "mode" "sub" subArgsEx subMatchesEx rfl
    (by decide) rfl rfl (by decide) (by decide)

/-- C8: `collect` is a pure, deterministic read over the adapter's
immutable state — two calls on the same adapter instance with no state
mutated in between return identical extracted trees. -/
theorem collect_snapshot_deterministic (c : Clap)
    (t₁ t₂ : List (String × Value))
    (h₁ : c.collect = Except.ok t₁) (h₂ : c.collect = Except.ok t₂) :
    t₁ = t₂ :=
  Except.ok.inj (h₁.symm.trans h₂)

/-- Witness for C8: two reads of the collision example's adapter agree. -/
theorem collect_snapshot_deterministic_witness :
    ([("sub", Value.str "sub")] : List (String × Value)) =
      [("sub", Value.str "sub")] :=
  collect_snapshot_deterministic collideClap _ _ collideClap_collect
    collideClap_collect

/-- C9: `collect` is total and never fails — for every adapter it
returns `Ok` carrying an extracted tree, and the error branch of its
result type is unreachable. -/
theorem collect_total (c : Clap) :
    (∃ t, c.collect = Except.ok t) ∧ ∀ e, c.collect ≠ Except.error e := by
  refine ⟨⟨_, rfl⟩, fun e h => ?_⟩
  exact Except.noConfusion h

/-- Witness for C9: the adapter over the empty grammar never reaches
the error branch. -/
theorem collect_total_witness :
    emptyClap.collect ≠ Except.error (ConfigError.Message "boom") :=
  (collect_total emptyClap).2 (ConfigError.Message "boom")

/-- C10: `get_args_types` resolves a shared name silently by
last-insert-wins: the lookup of the collected classification map equals
the lookup of the reversed insertion sequence, so a positional entry
(inserted last) takes precedence over a flag entry, which takes
precedence over an option entry, which takes precedence over a
subcommand entry of the same name — and within one category the last
declared entry wins. -/
theorem get_args_types_last_insert_wins (n : String) (subs : List App)
    (opts flags positionals : List Arg) (k : String) :
    hmFind? (get_args_types (App.mk n subs opts flags positionals)) k =
      (hmFind? (argEntries positionals).reverse k).orElse (fun _ =>
        (hmFind? (argEntries flags).reverse k).orElse (fun _ =>
          (hmFind? (argEntries opts).reverse k).orElse (fun _ =>
            hmFind? (subcommandEntries subs).reverse k))) := by
  rw [get_args_types, hmFind?_hmOfList]
  simp only [List.reverse_append]
  rw [hmFind?_append, hmFind?_append, hmFind?_append]

end ClapConfig
